import Mathlib

/-
Verification of the moving-average crossover trading core of `stock_test`
(src/main.py) against its natural-language specification.

Shallow embedding conventions:
* Python/NumPy floating-point values are modelled as exact rationals `ℚ`.
  The spec itself treats the arithmetic as exact ("an exact streaming
  mean"); the embedding therefore proves the exact-arithmetic statements.
* NumPy operations that raise a Python exception are modelled with
  `Except`.  NumPy float division never raises: division by zero only
  emits a RuntimeWarning and yields ±inf/NaN.  `ℚ` division is total with
  `x / 0 = 0`, so in both semantics a zero divisor produces a junk value
  rather than an error; theorems about concrete ratio values are only
  asserted where the divisor is nonzero.
-/

namespace StockTest

/-- `np.cumsum(a)`: element `i` is the sum of `a[0..i]` (inclusive). -/
def cumsum (a : List ℚ) : List ℚ :=
  (List.range a.length).map (fun i => (a.take (i + 1)).sum)

/-- `moving_mean` (src/main.py lines 26-28):
`1.0 / window_size * (cumsum[window_size:] - cumsum[:-window_size])`.
For `1 ≤ w`, `cumsum[w:]` is `drop w` and `cumsum[:-w]` is
`take (length - w)`; NumPy subtracts the two equal-length arrays
elementwise, modelled by `zip` and `map`. -/
def moving_mean (a : List ℚ) (w : ℕ) : List ℚ :=
  let c := cumsum a
  ((c.drop w).zip (c.take (c.length - w))).map (fun q => (1 / (w : ℚ)) * (q.1 - q.2))

/-- The scan loop of `mm_actions` (src/main.py lines 33-42), consuming the
zipped `(price, ma)` pairs with the mutable `last_buy : Option ℚ` made an
explicit argument.  Besides the accumulated trade list (`result` in the
source) it also returns the final value of `last_buy`, so that theorems
can talk about a position left open at the end of the series; the source
simply falls out of the loop and returns only the list. -/
def mm_actions_run : Option ℚ → List (ℚ × ℚ) → List (ℚ × ℚ) × Option ℚ
  | st, [] => ([], st)
  | none, (p, m) :: rest =>
      if p ≥ m then mm_actions_run (some p) rest
      else mm_actions_run none rest
  | some b, (p, m) :: rest =>
      if p < m then
        let r := mm_actions_run none rest
        ((b, p) :: r.1, r.2)
      else mm_actions_run (some b) rest

/-- `mm_actions(prices, mm)` (src/main.py lines 31-42): the list of
completed `(entry_price, exit_price)` trades.  The source asserts
`len(prices) == len(mm)`; theorems carry that as a hypothesis. -/
def mm_actions (prices mm : List ℚ) : List (ℚ × ℚ) :=
  (mm_actions_run none (prices.zip mm)).1

/-- Modelled from the spec: the single-position crossover state machine of
spec §4.2 — state `FLAT`, or `LONG` with its associated `entry_price`. -/
inductive SpecState
  | FLAT : SpecState
  | LONG : ℚ → SpecState
deriving DecidableEq

/-- Modelled from the spec: one transition of the spec §4.2 state machine
on the pair `(price, ma)`, returning the new state and the trades emitted
by this step (empty or a single `(entry_price, price)` pair). -/
def specStep (st : SpecState) (p m : ℚ) : SpecState × List (ℚ × ℚ) :=
  match st with
  | .FLAT => if p ≥ m then (.LONG p, []) else (.FLAT, [])
  | .LONG e => if p < m then (.FLAT, [(e, p)]) else (.LONG e, [])

/-- Modelled from the spec: run the spec state machine over the aligned
pairs in order, collecting emitted trades in order. -/
def specScan (st : SpecState) (l : List (ℚ × ℚ)) : SpecState × List (ℚ × ℚ) :=
  match l with
  | [] => (st, [])
  | (p, m) :: rest =>
      let r := specStep st p m
      let r2 := specScan r.1 rest
      (r2.1, r.2 ++ r2.2)

/-- Modelled from the spec: the TradeSet produced by the spec §4.2 machine
started FLAT with no entry price. -/
def specTrades (prices mm : List ℚ) : List (ℚ × ℚ) :=
  (specScan .FLAT (prices.zip mm)).2

/-- `win_ratios = (actions[:, 1] - actions[:, 0]) / actions[:, 0]`
(src/main.py line 63): per-trade return `(exit - entry) / entry`. -/
def win_ratios (actions : List (ℚ × ℚ)) : List ℚ :=
  actions.map (fun a => (a.2 - a.1) / a.1)

/-- `np.max` on a non-empty array: fold of the binary maximum.  NumPy
raises on an empty array; in `compute` it is only reached with a
non-empty one (the `[]` branch here is dead in that context). -/
def npMax : List ℚ → ℚ
  | [] => 0
  | x :: xs => xs.foldl max x

/-- `np.min` on a non-empty array, as for `npMax`. -/
def npMin : List ℚ → ℚ
  | [] => 0
  | x :: xs => xs.foldl min x

/-- The numeric fields of the tuple returned by `compute`
(src/main.py lines 76-79), in source order.  `total_win_rate` is the
source's `total_win_ratio` (line 64). -/
structure Stats where
  count : ℕ
  total_win_rate : ℚ
  best : ℚ
  worst : ℚ
  win_count : ℕ
  loss_count : ℕ
deriving DecidableEq

/-- The Python exception raised by the statistics part of `compute` when
`actions` is empty: `np.array([])` is 1-dimensional, so the indexing
`actions[:, 1]` on line 63 raises `IndexError`. -/
inductive NpError
  | indexError
deriving DecidableEq

/-- The statistics reduction of `compute` (src/main.py lines 61-79),
applied to the trade list `actions = mm_actions(...)`.  On an empty list
the source raises `IndexError` at `actions[:, 1]` before any statistic is
produced; on a non-empty list it computes
`total_win_ratio = (exit - entry).sum() / entry.sum()`,
`max(0, np.max(win_ratios))`, `min(0, np.min(win_ratios))`, and the
win/loss counts `np.sum(entry < exit)` / `np.sum(entry > exit)`; the
latter comparison `entry > exit` is written `exit < entry` here. -/
def computeStats : List (ℚ × ℚ) → Except NpError Stats
  | [] => .error .indexError
  | a :: rest =>
      let actions := a :: rest
      let wr := win_ratios actions
      .ok { count := actions.length
          , total_win_rate :=
              (actions.map (fun x => x.2 - x.1)).sum / (actions.map (fun x => x.1)).sum
          , best := max 0 (npMax wr)
          , worst := min 0 (npMin wr)
          , win_count := actions.countP (fun x => decide (x.1 < x.2))
          , loss_count := actions.countP (fun x => decide (x.2 < x.1)) }

/-- The `last_buy` option encoding a spec state. -/
def SpecState.toOpt : SpecState → Option ℚ
  | .FLAT => none
  | .LONG e => some e

lemma mm_actions_run_spec (l : List (ℚ × ℚ)) : ∀ st : SpecState,
    mm_actions_run (SpecState.toOpt st) l =
      ((specScan st l).2, SpecState.toOpt (specScan st l).1) := by
  induction l with
  | nil => intro st; cases st <;> simp [mm_actions_run, specScan, SpecState.toOpt]
  | cons hd tl ih =>
    intro st
    obtain ⟨p, m⟩ := hd
    cases st with
    | FLAT =>
      by_cases hpm : p ≥ m
      · simpa [mm_actions_run, specScan, specStep, SpecState.toOpt, hpm, Prod.ext_iff]
          using ih (.LONG p)
      · simpa [mm_actions_run, specScan, specStep, SpecState.toOpt, hpm, Prod.ext_iff]
          using ih .FLAT
    | LONG b =>
      by_cases hpm : p < m
      · simpa [mm_actions_run, specScan, specStep, SpecState.toOpt, hpm, Prod.ext_iff]
          using ih .FLAT
      · simpa [mm_actions_run, specScan, specStep, SpecState.toOpt, hpm, Prod.ext_iff]
          using ih (.LONG b)

lemma mm_actions_run_append (l₁ l₂ : List (ℚ × ℚ)) : ∀ st : Option ℚ,
    mm_actions_run st (l₁ ++ l₂) =
      ((mm_actions_run st l₁).1 ++ (mm_actions_run (mm_actions_run st l₁).2 l₂).1,
        (mm_actions_run (mm_actions_run st l₁).2 l₂).2) := by
  induction l₁ with
  | nil => intro st; cases st <;> simp [mm_actions_run]
  | cons hd tl ih =>
    intro st
    obtain ⟨p, m⟩ := hd
    cases st with
    | none => by_cases hpm : p ≥ m <;> simp [mm_actions_run, hpm, ih]
    | some b => by_cases hpm : p < m <;> simp [mm_actions_run, hpm, ih]

/-- 1 when a position is open, 0 when flat. -/
def optFlag : Option ℚ → ℕ
  | none => 0
  | some _ => 1

lemma mm_actions_run_bound (l : List (ℚ × ℚ)) : ∀ st : Option ℚ,
    2 * (mm_actions_run st l).1.length + optFlag (mm_actions_run st l).2 ≤
      l.length + optFlag st := by
  induction l with
  | nil => intro st; cases st <;> simp [mm_actions_run]
  | cons hd tl ih =>
    intro st
    obtain ⟨p, m⟩ := hd
    cases st with
    | none =>
      by_cases hpm : p ≥ m
      · have := ih (some p); simp [mm_actions_run, hpm, optFlag] at this ⊢; omega
      · have := ih none; simp [mm_actions_run, hpm, optFlag] at this ⊢; omega
    | some b =>
      by_cases hpm : p < m
      · have := ih none; simp [mm_actions_run, hpm, optFlag] at this ⊢; omega
      · have := ih (some b); simp [mm_actions_run, hpm, optFlag] at this ⊢; omega

/-- C1: over equal-length sequences, `mm_actions` is exactly the spec's
single-position state machine scanned in order: starting FLAT, when FLAT
and `price ≥ ma` it goes LONG recording the price, when LONG and
`price < ma` it emits `(entry_price, price)` and returns to FLAT,
otherwise nothing changes; in particular equality opens a position when
FLAT and never closes one when LONG. -/
theorem mm_actions_is_spec_machine (prices mm : List ℚ) (h : prices.length = mm.length) :
    mm_actions prices mm = specTrades prices mm ∧
    (∀ p : ℚ, specStep .FLAT p p = (.LONG p, [])) ∧
    (∀ b p : ℚ, specStep (.LONG b) p p = (.LONG b, [])) := by
  refine ⟨?_, ?_, ?_⟩
  · have hrun := mm_actions_run_spec (prices.zip mm) .FLAT
    simp [SpecState.toOpt] at hrun
    simp [mm_actions, specTrades, hrun]
  · intro p; simp [specStep]
  · intro b p; simp [specStep, lt_irrefl]

theorem mm_actions_is_spec_machine_witness :
    mm_actions [(10:ℚ), 10, 10, 12, 9] [10, 10, 10, 10, 10] =
      specTrades [(10:ℚ), 10, 10, 12, 9] [10, 10, 10, 10, 10] :=
  (mm_actions_is_spec_machine [(10:ℚ), 10, 10, 12, 9] [10, 10, 10, 10, 10] rfl).1

/-- C4: if the scan ends with a position still open (`last_buy = some b`),
that position is discarded: the result is exactly the closed trades, and
appending one more closing observation (`p < q`) would have emitted the
extra trade `(b, p)`, while appending a non-closing one adds nothing. -/
theorem open_position_discarded (prices mm : List ℚ) (b : ℚ)
    (h : prices.length = mm.length)
    (hopen : (mm_actions_run none (prices.zip mm)).2 = some b) :
    mm_actions prices mm = (mm_actions_run none (prices.zip mm)).1 ∧
    (∀ p q : ℚ, p < q →
      mm_actions (prices ++ [p]) (mm ++ [q]) = mm_actions prices mm ++ [(b, p)]) ∧
    (∀ p q : ℚ, ¬ p < q →
      mm_actions (prices ++ [p]) (mm ++ [q]) = mm_actions prices mm) := by
  refine ⟨rfl, ?_, ?_⟩ <;> intro p q hpq <;>
  · unfold mm_actions
    rw [List.zip_append h, mm_actions_run_append, hopen]
    simp [mm_actions_run, hpq]

theorem open_position_discarded_witness :
    mm_actions [(5:ℚ), 5, 4] [5, 5, 5] = mm_actions [(5:ℚ), 5] [5, 5] ++ [(5, 4)] := by
  have h := (open_position_discarded [(5:ℚ), 5] [5, 5] 5 rfl
    (by norm_num [mm_actions_run])).2.1 4 5 (by norm_num)
  simpa using h

/-- C10: over equal-length sequences of length n, at most ⌊n / 2⌋ trades
are emitted, because at every step of the scan (every prefix of the
zipped input) the invariant
`2 * trades_so_far + (1 if LONG else 0) ≤ observations_consumed` holds. -/
theorem trade_count_at_most_half (prices mm : List ℚ) (h : prices.length = mm.length) :
    (mm_actions prices mm).length ≤ prices.length / 2 ∧
    ∀ k : ℕ,
      2 * (mm_actions_run none ((prices.zip mm).take k)).1.length +
          optFlag (mm_actions_run none ((prices.zip mm).take k)).2 ≤
        ((prices.zip mm).take k).length := by
  constructor
  · have hb := mm_actions_run_bound (prices.zip mm) none
    have hz : (prices.zip mm).length = prices.length := by
      rw [List.length_zip, h, min_self]
    simp [optFlag] at hb
    unfold mm_actions
    omega
  · intro k
    have hb := mm_actions_run_bound ((prices.zip mm).take k) none
    simpa [optFlag] using hb

theorem trade_count_at_most_half_witness :
    (mm_actions [(10:ℚ), 10, 10, 12, 9] [10, 10, 10, 10, 10]).length ≤
      [(10:ℚ), 10, 10, 12, 9].length / 2 :=
  (trade_count_at_most_half [(10:ℚ), 10, 10, 12, 9] [10, 10, 10, 10, 10] rfl).1

lemma le_foldl_max_init (xs : List ℚ) : ∀ a : ℚ, a ≤ xs.foldl max a := by
  induction xs with
  | nil => intro a; exact le_refl a
  | cons x xs ih => intro a; exact le_trans (le_max_left a x) (ih (max a x))

lemma le_foldl_max_mem (xs : List ℚ) : ∀ a r : ℚ, r ∈ xs → r ≤ xs.foldl max a := by
  induction xs with
  | nil => intro a r h; cases h
  | cons x xs ih =>
    intro a r h
    rcases List.mem_cons.mp h with h | h
    · subst h; exact le_trans (le_max_right a r) (le_foldl_max_init xs (max a r))
    · exact ih (max a x) r h

lemma foldl_max_choice (xs : List ℚ) : ∀ a : ℚ, xs.foldl max a = a ∨ xs.foldl max a ∈ xs := by
  induction xs with
  | nil => intro a; exact Or.inl rfl
  | cons x xs ih =>
    intro a
    rcases ih (max a x) with h | h
    · rcases max_choice a x with hm | hm
      · exact Or.inl (by rw [List.foldl_cons, h, hm])
      · exact Or.inr (by rw [List.foldl_cons, h, hm]; exact List.mem_cons_self x xs)
    · exact Or.inr (List.mem_cons_of_mem x h)

lemma foldl_min_init (xs : List ℚ) : ∀ a : ℚ, xs.foldl min a ≤ a := by
  induction xs with
  | nil => intro a; exact le_refl a
  | cons x xs ih => intro a; exact le_trans (ih (min a x)) (min_le_left a x)

lemma foldl_min_mem (xs : List ℚ) : ∀ a r : ℚ, r ∈ xs → xs.foldl min a ≤ r := by
  induction xs with
  | nil => intro a r h; cases h
  | cons x xs ih =>
    intro a r h
    rcases List.mem_cons.mp h with h | h
    · subst h; exact le_trans (foldl_min_init xs (min a r)) (min_le_right a r)
    · exact ih (min a x) r h

lemma foldl_min_choice (xs : List ℚ) : ∀ a : ℚ, xs.foldl min a = a ∨ xs.foldl min a ∈ xs := by
  induction xs with
  | nil => intro a; exact Or.inl rfl
  | cons x xs ih =>
    intro a
    rcases ih (min a x) with h | h
    · rcases min_choice a x with hm | hm
      · exact Or.inl (by rw [List.foldl_cons, h, hm])
      · exact Or.inr (by rw [List.foldl_cons, h, hm]; exact List.mem_cons_self x xs)
    · exact Or.inr (List.mem_cons_of_mem x h)

lemma countP_trichotomy (t : List (ℚ × ℚ)) :
    t.countP (fun x => decide (x.1 < x.2)) + t.countP (fun x => decide (x.2 < x.1)) +
      t.countP (fun x => decide (x.1 = x.2)) = t.length := by
  induction t with
  | nil => rfl
  | cons a rest ih =>
    rcases lt_trichotomy a.1 a.2 with h | h | h
    · simp [List.countP_cons, h, not_lt.mpr h.le, ne_of_lt h]; omega
    · simp [List.countP_cons, h, lt_irrefl]; omega
    · simp [List.countP_cons, h, not_lt.mpr h.le, ne_of_gt h]; omega

/-- C2: the aggregate return of a non-empty trade list is the
capital-weighted total `sum(exit - entry) / sum(entry)`, and for some
trade list with unequal entry prices it differs from the arithmetic mean
of the per-trade ratios. -/
theorem total_win_rate_capital_weighted :
    (∀ (t : List (ℚ × ℚ)) (s : Stats), computeStats t = .ok s →
      s.total_win_rate = (t.map (fun x => x.2 - x.1)).sum / (t.map (fun x => x.1)).sum) ∧
    ∃ (t : List (ℚ × ℚ)) (s : Stats), computeStats t = .ok s ∧
      (∃ x ∈ t, ∃ y ∈ t, x.1 ≠ y.1) ∧
      s.total_win_rate ≠ (win_ratios t).sum / (t.length : ℚ) := by
  constructor
  · intro t s h
    cases t with
    | nil => simp [computeStats] at h
    | cons a rest =>
      simp only [computeStats, Except.ok.injEq] at h
      subst h
      rfl
  · refine ⟨[(100, 110), (50, 40)], _, rfl, ⟨(100, 110), by simp, (50, 40), by simp, by norm_num⟩, ?_⟩
    norm_num [computeStats, win_ratios]

theorem total_win_rate_capital_weighted_witness :
    ∃ s : Stats, computeStats [((100:ℚ), 110), (50, 40)] = Except.ok s ∧
      s.total_win_rate =
        (([((100:ℚ), 110), (50, 40)]).map (fun x => x.2 - x.1)).sum /
          (([((100:ℚ), 110), (50, 40)]).map (fun x => x.1)).sum :=
  ⟨_, rfl, total_win_rate_capital_weighted.1 _ _ rfl⟩

/-- C5: an empty trade list makes the statistics reduction fail with an
error instead of producing statistics; for prices `[5, 5]` against moving
average `[5, 5]` an entry fires at index 0 (`5 ≥ 5`), no exit ever fires,
the trade list is empty, and the reduction errors. -/
theorem empty_tradeset_errors :
    computeStats ([] : List (ℚ × ℚ)) = .error .indexError ∧
    mm_actions [(5:ℚ), 5] [5, 5] = [] ∧
    (mm_actions_run none ([(5:ℚ), 5].zip [5, 5])).2 = some 5 ∧
    computeStats (mm_actions [(5:ℚ), 5] [5, 5]) = .error .indexError := by
  refine ⟨rfl, ?_, ?_, ?_⟩ <;> norm_num [mm_actions, mm_actions_run, computeStats]

/-- C6 as stated is false: the trade produced is not `(12, 9)`. -/
theorem first_touch_counterexample :
    mm_actions [(10:ℚ), 10, 10, 12, 9] [10, 10, 10, 10, 10] ≠ [(12, 9)] := by
  norm_num [mm_actions, mm_actions_run]

/-- C6 amended: on prices `[10, 10, 10, 12, 9]` against moving average
`[10, 10, 10, 10, 10]` the simulator produces exactly one trade `(10, 9)`
(entry fires already at index 0, where `10 ≥ 10` while FLAT; exit at
index 4 where `9 < 10`), with aggregate return `(9 - 10) / 10 = -1/10`,
best 0, worst `-1/10`, `win_count = 0` and `loss_count = 1`. -/
theorem first_touch_trade :
    mm_actions [(10:ℚ), 10, 10, 12, 9] [10, 10, 10, 10, 10] = [(10, 9)] ∧
    computeStats [((10:ℚ), 9)] =
      Except.ok { count := 1, total_win_rate := -1/10, best := 0, worst := -1/10,
                  win_count := 0, loss_count := 1 } := by
  constructor
  · norm_num [mm_actions, mm_actions_run]
  · norm_num [computeStats, win_ratios, npMax, npMin]

/-- C7 as stated is false: the first full window `[1, 2, 3]` is not
represented in the output. -/
theorem moving_mean_example_counterexample :
    moving_mean [(1:ℚ), 2, 3, 4, 5] 3 ≠ [2, 3, 4] := by
  norm_num [moving_mean, cumsum, List.range_succ]

/-- C7 amended: `moving_mean([1,2,3,4,5], 3)` returns exactly `[3, 4]`
(length `5 - 3 = 2`): the means of the windows `[2, 3, 4]` and
`[3, 4, 5]`; the mean of the first window `[1, 2, 3]` is not produced. -/
theorem moving_mean_example :
    moving_mean [(1:ℚ), 2, 3, 4, 5] 3 = [3, 4] ∧
    ([(1:ℚ), 2, 3, 4, 5].drop 1).take 3 = [2, 3, 4] ∧ ((2:ℚ) + 3 + 4) / 3 = 3 ∧
    ([(1:ℚ), 2, 3, 4, 5].drop 2).take 3 = [3, 4, 5] ∧ ((3:ℚ) + 4 + 5) / 3 = 4 := by
  refine ⟨?_, rfl, by norm_num, rfl, by norm_num⟩
  norm_num [moving_mean, cumsum, List.range_succ]

/-- C8 as stated is false: on the trade list `[(0, 1)]`, whose only entry
price is zero, the statistics reduction does not fail — it returns a
result.  (In the NumPy source the divisions by zero merely emit a
RuntimeWarning and yield inf/NaN values; no exception is raised.) -/
theorem zero_entry_counterexample :
    ∃ s : Stats, computeStats [((0:ℚ), 1)] = Except.ok s :=
  ⟨_, rfl⟩

/-- C8 amended: the statistics reduction never fails on a non-empty trade
list — even one containing a zero entry price; the degenerate divisions
silently produce junk values instead of a raised error. -/
theorem nonempty_tradeset_no_error (t : List (ℚ × ℚ)) (h : t ≠ []) :
    ∃ s : Stats, computeStats t = Except.ok s := by
  cases t with
  | nil => exact absurd rfl h
  | cons a rest => exact ⟨_, rfl⟩

theorem nonempty_tradeset_no_error_witness :
    ∃ s : Stats, computeStats [((0:ℚ), 2)] = Except.ok s :=
  nonempty_tradeset_no_error [((0:ℚ), 2)] (by simp)

/-- C9: for every successfully reduced trade list, `best` is the maximum
of the per-trade ratios floored at 0 (characterised as: an upper bound,
nonnegative, and either 0 or attained), `worst` is the minimum capped at
0 symmetrically, `win_count` counts trades with `exit > entry`,
`loss_count` counts trades with `exit < entry`, and trades with
`exit = entry` are counted in neither. -/
theorem stats_best_worst_win_loss (t : List (ℚ × ℚ)) (s : Stats)
    (h : computeStats t = .ok s) :
    (∀ r ∈ win_ratios t, r ≤ s.best) ∧ 0 ≤ s.best ∧
      (s.best = 0 ∨ s.best ∈ win_ratios t) ∧
    (∀ r ∈ win_ratios t, s.worst ≤ r) ∧ s.worst ≤ 0 ∧
      (s.worst = 0 ∨ s.worst ∈ win_ratios t) ∧
    s.win_count = (t.filter (fun x => decide (x.1 < x.2))).length ∧
    s.loss_count = (t.filter (fun x => decide (x.2 < x.1))).length ∧
    s.win_count + s.loss_count +
      (t.filter (fun x => decide (x.1 = x.2))).length = t.length := by
  cases t with
  | nil => simp [computeStats] at h
  | cons a rest =>
    simp only [computeStats, Except.ok.injEq] at h
    subst h
    have hwr : win_ratios (a :: rest) =
        (a.2 - a.1) / a.1 :: win_ratios rest := rfl
    refine ⟨?_, le_max_left 0 _, ?_, ?_, min_le_left 0 _, ?_, ?_, ?_, ?_⟩
    · intro r hr
      rcases List.mem_cons.mp (hwr ▸ hr) with h | h
      · subst h
        exact le_trans (le_foldl_max_init (win_ratios rest) _) (le_max_right 0 _)
      · exact le_trans (le_foldl_max_mem (win_ratios rest) _ r h) (le_max_right 0 _)
    · rcases max_choice 0 (npMax (win_ratios (a :: rest))) with hm | hm
      · exact Or.inl hm
      · rw [hm, hwr]
        rcases foldl_max_choice (win_ratios rest) ((a.2 - a.1) / a.1) with hc | hc
        · exact Or.inr (by rw [npMax, hc]; exact List.mem_cons_self _ _)
        · exact Or.inr (by rw [npMax]; exact List.mem_cons_of_mem _ hc)
    · intro r hr
      rcases List.mem_cons.mp (hwr ▸ hr) with h | h
      · subst h
        exact le_trans (min_le_right 0 _) (foldl_min_init (win_ratios rest) _)
      · exact le_trans (min_le_right 0 _) (foldl_min_mem (win_ratios rest) _ r h)
    · rcases min_choice 0 (npMin (win_ratios (a :: rest))) with hm | hm
      · exact Or.inl hm
      · rw [hm, hwr]
        rcases foldl_min_choice (win_ratios rest) ((a.2 - a.1) / a.1) with hc | hc
        · exact Or.inr (by rw [npMin, hc]; exact List.mem_cons_self _ _)
        · exact Or.inr (by rw [npMin]; exact List.mem_cons_of_mem _ hc)
    · exact List.countP_eq_length_filter _ _
    · exact List.countP_eq_length_filter _ _
    · rw [← List.countP_eq_length_filter]
      exact countP_trichotomy (a :: rest)

theorem stats_best_worst_win_loss_witness :
    ∃ s : Stats, computeStats [((100:ℚ), 110), (50, 40)] = Except.ok s ∧
      0 ≤ s.best ∧ s.worst ≤ 0 ∧
      s.win_count =
        ([((100:ℚ), 110), (50, 40)].filter (fun x => decide (x.1 < x.2))).length := by
  obtain ⟨_, h2, _, _, h5, _, h7, _⟩ :=
    stats_best_worst_win_loss [((100:ℚ), 110), (50, 40)] _ rfl
  exact ⟨_, rfl, h2, h5, h7⟩


lemma cumsum_length (a : List ℚ) : (cumsum a).length = a.length := by
  simp [cumsum]

lemma cumsum_getElem (a : List ℚ) (i : ℕ) (h : i < (cumsum a).length) :
    (cumsum a)[i] = (a.take (i + 1)).sum := by
  simp [cumsum]

/-- C3: for positive `w ≤ len(prices)`, `moving_mean` returns
`len(prices) - w` values, and the value at output position `j`
(original index `i = j + w`) is the exact arithmetic mean of the window
`prices[i-w+1 .. i]`, i.e. of the `w` elements starting at index `j+1`. -/
theorem moving_mean_exact (a : List ℚ) (w : ℕ) (hw : 0 < w) (hlen : w ≤ a.length) :
    (moving_mean a w).length = a.length - w ∧
    ∀ j, j < a.length - w →
      ((a.drop (j + 1)).take w).length = w ∧
      (moving_mean a w).getD j 0 = ((a.drop (j + 1)).take w).sum / (w : ℚ) := by
  have hmm : moving_mean a w =
      (((cumsum a).drop w).zip ((cumsum a).take ((cumsum a).length - w))).map
        (fun q => (1 / (w : ℚ)) * (q.1 - q.2)) := rfl
  have hc := cumsum_length a
  have hlen1 : (moving_mean a w).length = a.length - w := by
    rw [hmm]
    simp only [List.length_map, List.length_zip, List.length_take, List.length_drop, hc]
    omega
  refine ⟨hlen1, ?_⟩
  intro j hj
  constructor
  · simp only [List.length_take, List.length_drop]
    omega
  · have hj2 : j < (moving_mean a w).length := by rw [hlen1]; exact hj
    rw [List.getD_eq_getElem _ _ hj2]
    rw [List.getElem_of_eq hmm]
    simp only [List.getElem_map, List.getElem_zip, List.getElem_drop, List.getElem_take]
    rw [cumsum_getElem, cumsum_getElem]
    have hsplit : a.take (w + j + 1) = a.take (j + 1) ++ (a.drop (j + 1)).take w := by
      have harith : w + j + 1 = (j + 1) + w := by ring
      rw [harith, List.take_add]
    rw [hsplit, List.sum_append]
    have hw' : (w : ℚ) ≠ 0 := Nat.cast_ne_zero.mpr hw.ne'
    field_simp

theorem moving_mean_exact_witness :
    (moving_mean [(1:ℚ), 2, 3, 4, 5] 3).length = 5 - 3 ∧
    (moving_mean [(1:ℚ), 2, 3, 4, 5] 3).getD 0 0 =
      (([(1:ℚ), 2, 3, 4, 5].drop 1).take 3).sum / (3 : ℚ) := by
  obtain ⟨h1, h2⟩ := moving_mean_exact [(1:ℚ), 2, 3, 4, 5] 3 (by norm_num) (by norm_num)
  exact ⟨h1, (h2 0 (by norm_num)).2⟩

end StockTest
